import Mathlib

/-!
Verification of the TCNopen TRDP `vos_mem` fixed-block memory allocator.

The repository provides the interface header `src/trdp/src/vos/api/vos_mem.h`:
the compile-time size-class table `VOS_MEM_BLOCKSIZES`, the default
pre-allocation vector `VOS_MEM_PREALLOCATE`, the caps `VOS_MEM_NBLOCKSIZES`
and `VOS_MEM_MAX_PREALLOCATE`, the block-size enumeration `VOS_MEM_BLK_T`,
and the prototypes of `vos_memInit`, `vos_memDelete`, `vos_memAlloc`,
`vos_memFree` and `vos_memCount`.  The allocator implementation itself is not
part of the sources; its behaviour is modelled here from the natural-language
specification (segregated free-lists over a single arena, class promotion,
virgin carving, pre-fragmentation, pointer validation and accounting).
-/

namespace VosMem

/-! ## Constants taken from vos_mem.h -/

/-- Number of different sizes of memory allocation blocks (vos_mem.h line 48). -/
def VOS_MEM_NBLOCKSIZES : Nat := 15

/-- Max blocks to pre-allocate (vos_mem.h line 49). -/
def VOS_MEM_MAX_PREALLOCATE : Nat := 10

/-- The compile-time block-size table (vos_mem.h lines 53-54). -/
def VOS_MEM_BLOCKSIZES : List Nat :=
  [32, 64, 128, 256, 512, 1024, 2048, 4096, 8192,
   16384, 32768, 65536, 131072, 262144, 524288]

/-- Default pre-allocation of free memory blocks (vos_mem.h line 58). -/
def VOS_MEM_PREALLOCATE : List Nat :=
  [0, 0, 0, 0, 0, 0, 0, 0, 0, 1, 1, 1, 4, 0, 0]

/-- Enumeration for memory block sizes (vos_mem.h lines 69-86). -/
inductive VOS_MEM_BLK_T where
  | TRDP_MEM_BLK_32
  | TRDP_MEM_BLK_64
  | TRDP_MEM_BLK_128
  | TRDP_MEM_BLK_256
  | TRDP_MEM_BLK_512
  | TRDP_MEM_BLK_1024
  | TRDP_MEM_BLK_2048
  | TRDP_MEM_BLK_4096
  | TRDP_MEM_BLK_8192
  | TRDP_MEM_BLK_16384
  | TRDP_MEM_BLK_32768
  | TRDP_MEM_BLK_65536
  | TRDP_MEM_BLK_131072
  | TRDP_MEM_BLK_262144
  | TRDP_MEM_BLK_524288
  deriving DecidableEq, Fintype

/-- Numeric value of an enumerator of `VOS_MEM_BLK_T`; the C enum starts at
`TRDP_MEM_BLK_32 = 0` and counts up. -/
def VOS_MEM_BLK_T.val : VOS_MEM_BLK_T → Nat
  | .TRDP_MEM_BLK_32 => 0
  | .TRDP_MEM_BLK_64 => 1
  | .TRDP_MEM_BLK_128 => 2
  | .TRDP_MEM_BLK_256 => 3
  | .TRDP_MEM_BLK_512 => 4
  | .TRDP_MEM_BLK_1024 => 5
  | .TRDP_MEM_BLK_2048 => 6
  | .TRDP_MEM_BLK_4096 => 7
  | .TRDP_MEM_BLK_8192 => 8
  | .TRDP_MEM_BLK_16384 => 9
  | .TRDP_MEM_BLK_32768 => 10
  | .TRDP_MEM_BLK_65536 => 11
  | .TRDP_MEM_BLK_131072 => 12
  | .TRDP_MEM_BLK_262144 => 13
  | .TRDP_MEM_BLK_524288 => 14

/-- Payload size of class `c`; out-of-range indices give 0 (the table has no
entry there). -/
def blockSize (c : Nat) : Nat := VOS_MEM_BLOCKSIZES.getD c 0

/-- C1: The size-class ladder has exactly 15 classes, the table equals the
doubling ladder S[i] = 32 * 2^i for i in [0,14], the table is literally
{32, 64, ..., 524288}, and the largest class is 524288 bytes; the enum
`VOS_MEM_BLK_T` likewise has exactly 15 members whose values enumerate the
classes 0..14. -/
theorem C1_size_class_ladder :
    VOS_MEM_BLOCKSIZES.length = VOS_MEM_NBLOCKSIZES ∧
    VOS_MEM_NBLOCKSIZES = 15 ∧
    (∀ i : Fin 15, VOS_MEM_BLOCKSIZES.getD i.val 0 = 32 * 2 ^ i.val) ∧
    VOS_MEM_BLOCKSIZES =
      [32, 64, 128, 256, 512, 1024, 2048, 4096, 8192,
       16384, 32768, 65536, 131072, 262144, 524288] ∧
    VOS_MEM_BLOCKSIZES.getD 14 0 = 524288 ∧
    (∀ i : Fin 15, VOS_MEM_BLOCKSIZES.getD i.val 0 ≤ 524288) ∧
    Fintype.card VOS_MEM_BLK_T = VOS_MEM_NBLOCKSIZES ∧
    (∀ b : VOS_MEM_BLK_T, blockSize b.val = 32 * 2 ^ b.val) := by
  refine ⟨by decide, by decide, by decide, by decide, by decide, by decide, by decide, ?_⟩
  intro b
  cases b <;> decide

/-- C10: Every entry of the default pre-allocation vector is at most
`VOS_MEM_MAX_PREALLOCATE` (so clamping with `min` is the identity on it), and
its non-zero entries sit exactly at classes 9..12, namely one block each of
payload sizes 16384, 32768, 65536 and four blocks of 131072. -/
theorem C10_default_preallocation :
    VOS_MEM_PREALLOCATE.length = VOS_MEM_NBLOCKSIZES ∧
    (∀ i : Fin 15, VOS_MEM_PREALLOCATE.getD i.val 0 ≤ VOS_MEM_MAX_PREALLOCATE) ∧
    (∀ i : Fin 15,
      min (VOS_MEM_PREALLOCATE.getD i.val 0) VOS_MEM_MAX_PREALLOCATE =
        VOS_MEM_PREALLOCATE.getD i.val 0) ∧
    (∀ i : Fin 15,
      VOS_MEM_PREALLOCATE.getD i.val 0 ≠ 0 ↔
        (i.val = 9 ∨ i.val = 10 ∨ i.val = 11 ∨ i.val = 12)) ∧
    VOS_MEM_PREALLOCATE.getD 9 0 = 1 ∧ blockSize 9 = 16384 ∧
    VOS_MEM_PREALLOCATE.getD 10 0 = 1 ∧ blockSize 10 = 32768 ∧
    VOS_MEM_PREALLOCATE.getD 11 0 = 1 ∧ blockSize 11 = 65536 ∧
    VOS_MEM_PREALLOCATE.getD 12 0 = 4 ∧ blockSize 12 = 131072 := by
  decide

/-! ## Spec-modelled allocator

The implementation file (vos_mem.c) is not part of the sources; only its
interface header is.  The definitions below are therefore modelled from the
specification.  Addresses are byte offsets into the allocation region (the
part of the caller's buffer behind the aligned arena descriptor); a payload
pointer is the offset of the first payload byte of a block. -/

/-- Error codes of the VOS layer used by the memory unit, from the retval
documentation in vos_mem.h: `VOS_NO_ERR`, `VOS_PARAM_ERR`, `VOS_INIT_ERR`,
`VOS_MEM_ERR`. -/
inductive VOS_ERR where
  | NO_ERR
  | PARAM_ERR
  | INIT_ERR
  | MEM_ERR
  deriving DecidableEq

/-- Modelled from the spec: the block header is "a small prefix on every
served block" carrying class index, state tag and magic number; its concrete
byte size is not given by the spec and is fixed here at 8 bytes. -/
def hdrSize : Nat := 8

/-- Modelled from the spec: the arena descriptor sits at the head of the
caller's buffer, followed by "any alignment padding"; its concrete byte size
is not given by the spec and is fixed here at 60 bytes (not 8-aligned, so the
padding the spec mentions is actually exercised). -/
def descSize : Nat := 60

/-- Modelled from the spec: the magic number stamped into every block header
to reject foreign pointers and detect double-free; the concrete value is not
given by the spec. -/
def magicValue : Nat := 305419896

/-- Modelled from the spec: the state tag of a block header, `FREE` or
`IN_USE`. -/
inductive BlockState where
  | FREE
  | IN_USE
  deriving DecidableEq

/-- Modelled from the spec: a block header carries the class index, the state
tag and the magic number; for free blocks the `next` link that threads the
free-list is represented by the per-class lists in `MemState` instead of an
in-band pointer. -/
structure Header where
  cls : Nat
  state : BlockState
  magic : Nat
  deriving DecidableEq

/-- Modelled from the spec: the arena descriptor.  `regionSize` is the size of
the allocation region, `highWater` the offset of its first still-virgin byte,
`headers` maps the start offset of every carved block to its header (newest
first), `freeLists` holds the per-class stacks of free block start offsets,
and `freeCount`, `usedBytes`, `freeBytes` are the running counters the spec
requires in the descriptor. -/
structure MemState where
  regionSize : Nat
  highWater : Nat
  headers : List (Nat × Header)
  freeLists : Nat → List Nat
  freeCount : Nat → Nat
  usedBytes : Nat
  freeBytes : Nat

/-- Header of the block starting at offset `b`, when one was carved there. -/
def headerAt : List (Nat × Header) → Nat → Option Header
  | [], _ => none
  | e :: t, b => if e.1 = b then some e.2 else headerAt t b

/-- Rewrite the state tag of the block starting at offset `b`. -/
def setState (l : List (Nat × Header)) (b : Nat) (s : BlockState) :
    List (Nat × Header) :=
  l.map (fun e => if e.1 = b then (e.1, { e.2 with state := s }) else e)

/-- Modelled from the spec: the size-class mapper returns the smallest class
`c` with `S[c] ≥ n`, fails for `n > S[14]`, and maps a request of 0 to
class 0. -/
def findBlockClass (n : Nat) : Option Nat :=
  (List.range VOS_MEM_NBLOCKSIZES).find? (fun c => n ≤ blockSize c)

/-- First class in `c, c+1, ..., 14` whose free-list is non-empty (the
class-promotion search of the allocation core). -/
def findAvail (st : MemState) (c : Nat) : Option Nat :=
  (List.range' c (VOS_MEM_NBLOCKSIZES - c)).find?
    (fun j => !(st.freeLists j).isEmpty)

/-- Modelled from the spec: the allocation core.  Map the request to its
class; scan the free-lists upward from that class and pop the first non-empty
one, serving the (possibly larger) block whole; if all lists `c..14` are
empty, carve a fresh class-`c` block from the virgin tail when it fits;
otherwise return null.  The returned offset points one header past the block
start. -/
def vos_memAlloc (st : MemState) (n : Nat) : MemState × Option Nat :=
  match findBlockClass n with
  | none => (st, none)
  | some c =>
    match findAvail st c with
    | some c2 =>
      match st.freeLists c2 with
      | [] => (st, none)
      | b :: rest =>
        ({ st with
            headers := setState st.headers b BlockState.IN_USE,
            freeLists := Function.update st.freeLists c2 rest,
            freeCount := Function.update st.freeCount c2 (st.freeCount c2 - 1),
            usedBytes := st.usedBytes + blockSize c2,
            freeBytes := st.freeBytes - blockSize c2 },
         some (b + hdrSize))
    | none =>
      if st.highWater + (hdrSize + blockSize c) ≤ st.regionSize then
        ({ st with
            headers := (st.highWater,
              { cls := c, state := BlockState.IN_USE, magic := magicValue })
              :: st.headers,
            highWater := st.highWater + (hdrSize + blockSize c),
            usedBytes := st.usedBytes + blockSize c },
         some (st.highWater + hdrSize))
      else (st, none)

/-- Modelled from the spec: the deallocation core.  A null pointer is a
silent no-op; a pointer outside the region, one whose header cannot be found
(misaligned or foreign), one with a wrong magic, or one whose header already
says `FREE` is rejected with `PARAM_ERR` and the state is left untouched;
a valid `IN_USE` block is flipped to `FREE` and pushed onto the free-list of
its recorded class. -/
def vos_memFree (st : MemState) (p : Option Nat) : VOS_ERR × MemState :=
  match p with
  | none => (VOS_ERR.NO_ERR, st)
  | some ptr =>
    if ptr < hdrSize ∨ st.regionSize ≤ ptr then (VOS_ERR.PARAM_ERR, st)
    else
      match headerAt st.headers (ptr - hdrSize) with
      | none => (VOS_ERR.PARAM_ERR, st)
      | some h =>
        if h.magic ≠ magicValue then (VOS_ERR.PARAM_ERR, st)
        else
          match h.state with
          | BlockState.FREE => (VOS_ERR.PARAM_ERR, st)
          | BlockState.IN_USE =>
            (VOS_ERR.NO_ERR,
             { st with
                headers := setState st.headers (ptr - hdrSize) BlockState.FREE,
                freeLists := Function.update st.freeLists h.cls
                  ((ptr - hdrSize) :: st.freeLists h.cls),
                freeCount := Function.update st.freeCount h.cls
                  (st.freeCount h.cls + 1),
                usedBytes := st.usedBytes - blockSize h.cls,
                freeBytes := st.freeBytes + blockSize h.cls })

/-- Modelled from the spec: the accounting operation returns the used-byte
total, the free-byte total counting both free-listed blocks and the unused
virgin tail, and the per-class free-count vector. -/
def vos_memCount (st : MemState) : Nat × Nat × List Nat :=
  (st.usedBytes,
   st.freeBytes + (st.regionSize - st.highWater),
   (List.range VOS_MEM_NBLOCKSIZES).map st.freeCount)

/-- Carve one fresh class-`c` block out of the virgin tail and push it onto
the free-list of class `c` (the pre-fragmentation step); `none` when it does
not fit. -/
def carveFree (st : MemState) (c : Nat) : Option MemState :=
  if st.highWater + (hdrSize + blockSize c) ≤ st.regionSize then
    some { st with
      headers := (st.highWater,
        { cls := c, state := BlockState.FREE, magic := magicValue })
        :: st.headers,
      highWater := st.highWater + (hdrSize + blockSize c),
      freeLists := Function.update st.freeLists c
        (st.highWater :: st.freeLists c),
      freeCount := Function.update st.freeCount c (st.freeCount c + 1),
      freeBytes := st.freeBytes + blockSize c }
  else none

/-- Pre-carve up to `k` class-`c` blocks, stopping as soon as the virgin tail
cannot hold another one. -/
def prefragClass : MemState → Nat → Nat → MemState
  | st, _, 0 => st
  | st, c, Nat.succ k =>
    match carveFree st c with
    | none => st
    | some st2 => prefragClass st2 c k

/-- Modelled from the spec: pre-fragmentation processes the classes largest
first (`c = 14` down to `0`), carving `frag[c]` blocks per class clamped to
`VOS_MEM_MAX_PREALLOCATE`. -/
def prefragAll (st : MemState) (frag : List Nat) : MemState :=
  ((List.range VOS_MEM_NBLOCKSIZES).reverse).foldl
    (fun s c => prefragClass s c (min (frag.getD c 0) VOS_MEM_MAX_PREALLOCATE))
    st

/-- Fresh descriptor over an allocation region of `rs` bytes. -/
def initialState (rs : Nat) : MemState :=
  { regionSize := rs, highWater := 0, headers := [],
    freeLists := fun _ => [], freeCount := fun _ => 0,
    usedBytes := 0, freeBytes := 0 }

/-- Round `n` up to the next multiple of `a`. -/
def alignUp (n a : Nat) : Nat := ((n + a - 1) / a) * a

/-- Modelled from the spec: initialisation.  Reject a null buffer or a size
smaller than `sizeof(descriptor) + S[0] + sizeof(header)` with `PARAM_ERR`;
reject with `MEM_ERR` when the region behind the aligned descriptor cannot
hold even one smallest-class block; otherwise establish the descriptor and
run pre-fragmentation.  `pMemoryArea` is `none` for a NULL buffer pointer. -/
def vos_memInit (pMemoryArea : Option Nat) (size : Nat)
    (frag : List Nat) : VOS_ERR × Option MemState :=
  match pMemoryArea with
  | none => (VOS_ERR.PARAM_ERR, none)
  | some _ =>
    if size < descSize + blockSize 0 + hdrSize then (VOS_ERR.PARAM_ERR, none)
    else
      let start := alignUp descSize 8
      if size - start < hdrSize + blockSize 0 then (VOS_ERR.MEM_ERR, none)
      else (VOS_ERR.NO_ERR, some (prefragAll (initialState (size - start)) frag))

/-! ## Module lifecycle

`Option MemState` is the module-level state: `none` is UNINIT, `some st` is
INIT with descriptor `st`. -/

/-- Modelled from the spec: `vos_memInit` at module level; init on an already
initialised descriptor is rejected with `PARAM_ERR`. -/
def memInitTop (m : Option MemState) (pMemoryArea : Option Nat) (size : Nat)
    (frag : List Nat) : VOS_ERR × Option MemState :=
  match m with
  | some st => (VOS_ERR.PARAM_ERR, some st)
  | none => vos_memInit pMemoryArea size frag

/-- Modelled from the spec: `vos_memAlloc` at module level; in UNINIT it
returns null. -/
def memAllocTop : Option MemState → Nat → Option MemState × Option Nat
  | none, _ => (none, none)
  | some st, n =>
    let r := vos_memAlloc st n
    (some r.1, r.2)

/-- Modelled from the spec: `vos_memFree` at module level; in UNINIT it fails
with `INIT_ERR`. -/
def memFreeTop : Option MemState → Option Nat → VOS_ERR × Option MemState
  | none, _ => (VOS_ERR.INIT_ERR, none)
  | some st, p =>
    let r := vos_memFree st p
    (r.1, some r.2)

/-- Modelled from the spec: `vos_memCount` at module level; in UNINIT it
fails with `INIT_ERR`.  The final component is the module state after the
call. -/
def memCountTop :
    Option MemState → VOS_ERR × Option (Nat × Nat × List Nat) × Option MemState
  | none => (VOS_ERR.INIT_ERR, none, none)
  | some st => (VOS_ERR.NO_ERR, some (vos_memCount st), some st)

/-- Modelled from the spec: `vos_memDelete` at module level; in UNINIT it
fails with `INIT_ERR`, otherwise it tears the arena down and the module
returns to UNINIT. -/
def memDeleteTop : Option MemState → VOS_ERR × Option MemState
  | none => (VOS_ERR.INIT_ERR, none)
  | some _ => (VOS_ERR.NO_ERR, none)

/-! ## The size-class mapper -/

/-- A successful `find?` over a block of consecutive naturals returns the
first element satisfying the predicate: it is in range, it satisfies the
predicate, and everything before it does not. -/
theorem find_range_first {p : Nat → Bool} :
    ∀ (k s c : Nat), (List.range' s k).find? p = some c →
      s ≤ c ∧ c < s + k ∧ p c = true ∧ ∀ j, s ≤ j → j < c → p j = false := by
  intro k
  induction k with
  | zero => intro s c h; simp [List.range'] at h
  | succ k ih =>
    intro s c h
    rw [List.range'_succ] at h
    cases hp : p s with
    | true =>
      rw [List.find?_cons_of_pos _ hp] at h
      have hc : s = c := by injection h
      subst hc
      exact ⟨Nat.le_refl _, by omega, hp, fun j h1 h2 => by omega⟩
    | false =>
      rw [List.find?_cons_of_neg _ (by simp [hp])] at h
      obtain ⟨h1, h2, h3, h4⟩ := ih (s + 1) c h
      refine ⟨by omega, by omega, h3, ?_⟩
      intro j hj1 hj2
      rcases Nat.eq_or_lt_of_le hj1 with hEq | hlt
      · exact hEq ▸ hp
      · exact h4 j (by omega) hj2

/-- A successful class lookup is in range, its class holds the request, and
every smaller class is too small. -/
theorem findBlockClass_some {n c : Nat} (h : findBlockClass n = some c) :
    c < 15 ∧ n ≤ blockSize c ∧ ∀ j, j < c → blockSize j < n := by
  have h2 : (List.range' 0 15).find? (fun c => n ≤ blockSize c) = some c := by
    have : List.range 15 = List.range' 0 15 := List.range_eq_range' 15
    simpa [findBlockClass, VOS_MEM_NBLOCKSIZES, this] using h
  obtain ⟨-, hlt, hp, hmin⟩ := find_range_first 15 0 c h2
  refine ⟨by omega, by simpa using hp, ?_⟩
  intro j hj
  have := hmin j (Nat.zero_le j) hj
  simp at this
  omega

/-- Every class payload in the table is at most `S[14] = 524288`. -/
theorem blockSize_le (c : Nat) : blockSize c ≤ 524288 := by
  rcases Nat.lt_or_ge c 15 with h | h
  · have hall : ∀ x, x < 15 → blockSize x ≤ 524288 := by decide
    exact hall c h
  · have h0 : VOS_MEM_BLOCKSIZES.getD c 0 = 0 :=
      List.getD_eq_default _ _ (by simpa [VOS_MEM_BLOCKSIZES] using h)
    unfold blockSize
    rw [h0]
    omega

/-- Requests beyond the largest class fail the mapper. -/
theorem findBlockClass_none {n : Nat} (h : 524288 < n) :
    findBlockClass n = none := by
  rw [findBlockClass, List.find?_eq_none]
  intro x hx
  have := blockSize_le x
  simp only [decide_eq_true_eq]
  omega

/-- The mapper succeeds on every request up to the largest class. -/
theorem findBlockClass_total {n : Nat} (h : n ≤ 524288) :
    ∃ c, findBlockClass n = some c := by
  cases hf : findBlockClass n with
  | some c => exact ⟨c, rfl⟩
  | none =>
    rw [findBlockClass, List.find?_eq_none] at hf
    have h14 : (14 : Nat) ∈ List.range VOS_MEM_NBLOCKSIZES := by decide
    have := hf 14 h14
    simp [blockSize, VOS_MEM_BLOCKSIZES] at this
    omega

/-- C2: For `1 ≤ n ≤ 524288` the mapper used by allocation returns the
smallest class `c` with `S[c] ≥ n`; any request above 524288 (in particular
524289) makes allocation return null; and a request of 0 is mapped to
class 0, so `alloc(0)` behaves exactly like the minimally sized request
`alloc(1)`. -/
theorem C2_mapper_smallest_class :
    (∀ n, 1 ≤ n → n ≤ 524288 →
      ∃ c, findBlockClass n = some c ∧ n ≤ blockSize c ∧
        ∀ j, j < c → blockSize j < n) ∧
    (∀ st, vos_memAlloc st 524289 = (st, none)) ∧
    (∀ n, 524288 < n → ∀ st, vos_memAlloc st n = (st, none)) ∧
    findBlockClass 0 = some 0 ∧
    (∀ st, vos_memAlloc st 0 = vos_memAlloc st 1) := by
  refine ⟨?_, ?_, ?_, by decide, ?_⟩
  · intro n h1 h2
    obtain ⟨c, hc⟩ := findBlockClass_total h2
    obtain ⟨-, hle, hmin⟩ := findBlockClass_some hc
    exact ⟨c, hc, hle, hmin⟩
  · intro st
    rw [vos_memAlloc, findBlockClass_none (by omega)]
  · intro n hn st
    rw [vos_memAlloc, findBlockClass_none hn]
  · intro st
    have h0 : findBlockClass 0 = some 0 := by decide
    have h1 : findBlockClass 1 = some 0 := by decide
    rw [vos_memAlloc, vos_memAlloc, h0, h1]

/-- Witness for C2 at concrete inputs: the request 100 is served from class 2
(128 bytes), whose predecessor class holds only 64 bytes. -/
theorem C2_mapper_smallest_class_witness :
    (∃ c, findBlockClass 100 = some c ∧ 100 ≤ blockSize c ∧
      ∀ j, j < c → blockSize j < 100) ∧
    vos_memAlloc (initialState 1024) 524289 = (initialState 1024, none) ∧
    vos_memAlloc (initialState 1024) 600000 = (initialState 1024, none) ∧
    findBlockClass 0 = some 0 ∧
    vos_memAlloc (initialState 1024) 0 = vos_memAlloc (initialState 1024) 1 :=
  ⟨C2_mapper_smallest_class.1 100 (by decide) (by decide),
   C2_mapper_smallest_class.2.1 (initialState 1024),
   C2_mapper_smallest_class.2.2.1 600000 (by decide) (initialState 1024),
   C2_mapper_smallest_class.2.2.2.1,
   C2_mapper_smallest_class.2.2.2.2 (initialState 1024)⟩

/-! ## Accounting sums and the arena invariant -/

/-- Sum of the payload sizes of all carved blocks whose header carries state
tag `s`. -/
def stateSum (s : BlockState) : List (Nat × Header) → Nat
  | [] => 0
  | e :: t => (if e.2.state = s then blockSize e.2.cls else 0) + stateSum s t

/-- Number of `IN_USE` blocks of class `c`. -/
def inUseCount : List (Nat × Header) → Nat → Nat
  | [], _ => 0
  | e :: t, c =>
    (if e.2.state = BlockState.IN_USE ∧ e.2.cls = c then 1 else 0) + inUseCount t c

/-- Total payload bytes of a per-class family of free-lists. -/
def listSum (f : Nat → List Nat) : Nat :=
  ((List.range 15).map (fun c => blockSize c * (f c).length)).sum

/-- Total payload bytes sitting on the per-class free-lists. -/
def freeSumLists (st : MemState) : Nat := listSum st.freeLists

/-- The carved blocks tile the interval `[0, hw)` of the allocation region:
newest first, each block start plus header plus payload reaches the start of
the previously carved block, every class index is in range and every header
carries the magic. -/
def wfChain : List (Nat × Header) → Nat → Prop
  | [], hw => hw = 0
  | e :: t, hw =>
    e.2.cls < 15 ∧ e.2.magic = magicValue ∧
    e.1 + (hdrSize + blockSize e.2.cls) = hw ∧ wfChain t e.1

instance wfChainDecidable : (l : List (Nat × Header)) → (hw : Nat) →
    Decidable (wfChain l hw)
  | [], hw => decidable_of_iff (hw = 0) (by rw [wfChain])
  | e :: t, hw =>
    have : Decidable (wfChain t e.1) := wfChainDecidable t e.1
    decidable_of_iff
      (e.2.cls < 15 ∧ e.2.magic = magicValue ∧
        e.1 + (hdrSize + blockSize e.2.cls) = hw ∧ wfChain t e.1)
      (by rw [wfChain])

/-- The arena invariant: the header chain tiles `[0, highWater)`, the
counters agree with the structures (usedBytes with the `IN_USE` headers,
freeBytes both with the free-lists and with the `FREE` headers, freeCount
with the list lengths), every free-listed offset carries a matching `FREE`
header, and the free-lists are duplicate-free and pairwise disjoint. -/
def Inv (st : MemState) : Prop :=
  wfChain st.headers st.highWater ∧
  st.highWater ≤ st.regionSize ∧
  st.usedBytes = stateSum BlockState.IN_USE st.headers ∧
  st.freeBytes = freeSumLists st ∧
  st.freeBytes = stateSum BlockState.FREE st.headers ∧
  (∀ c, c < 15 → st.freeCount c = (st.freeLists c).length) ∧
  (∀ c, c < 15 → ∀ b ∈ st.freeLists c,
    headerAt st.headers b =
      some { cls := c, state := BlockState.FREE, magic := magicValue }) ∧
  (∀ c, c < 15 → (st.freeLists c).Nodup) ∧
  (∀ c1, c1 < 15 → ∀ c2, c2 < 15 →
    (c1 = c2 ∨ ∀ b ∈ st.freeLists c1, b ∉ st.freeLists c2))

instance InvDecidable (st : MemState) : Decidable (Inv st) := by
  unfold Inv
  infer_instance

/-! ## Generic lemmas about the header chain and the sums -/

theorem hdrSize_pos : 0 < hdrSize := by decide

/-- A found header belongs to the chain. -/
theorem headerAt_mem {l : List (Nat × Header)} {b : Nat} {h : Header}
    (hf : headerAt l b = some h) : (b, h) ∈ l := by
  induction l with
  | nil => simp [headerAt] at hf
  | cons e t ih =>
    rw [headerAt] at hf
    by_cases he : e.1 = b
    · rw [if_pos he] at hf
      obtain rfl : e.2 = h := by injection hf
      subst he
      exact List.mem_cons_self e t
    · rw [if_neg he] at hf
      exact List.mem_cons_of_mem _ (ih hf)

/-- Rewriting the state of block `b` rewrites exactly the header found at
`b`. -/
theorem headerAt_setState_self (l : List (Nat × Header)) (b : Nat)
    (s : BlockState) :
    headerAt (setState l b s) b =
      (headerAt l b).map (fun h => { h with state := s }) := by
  induction l with
  | nil => simp [headerAt, setState]
  | cons e t ih =>
    by_cases he : e.1 = b
    · simp [headerAt, setState, he]
    · simp only [setState] at ih
      simp [headerAt, setState, he, ih]

/-- Rewriting the state of block `b` leaves every other lookup unchanged. -/
theorem headerAt_setState_ne (l : List (Nat × Header)) (b x : Nat)
    (s : BlockState) (hne : x ≠ b) :
    headerAt (setState l b s) x = headerAt l x := by
  induction l with
  | nil => simp [headerAt, setState]
  | cons e t ih =>
    simp only [setState] at ih
    by_cases he : e.1 = b
    · have hbx : b ≠ x := fun hc => hne hc.symm
      simp [headerAt, setState, he, hbx, ih]
    · by_cases hx : e.1 = x
      · simp [headerAt, setState, he, hx, hne]
      · simp [headerAt, setState, he, hx, ih]

/-- `setState` at a key that is not in the chain is the identity. -/
theorem setState_of_not_mem {l : List (Nat × Header)} {b : Nat}
    (hb : ∀ e ∈ l, e.1 ≠ b) (s : BlockState) : setState l b s = l := by
  induction l with
  | nil => rfl
  | cons e t ih =>
    have he : e.1 ≠ b := hb e (List.mem_cons_self e t)
    rw [setState, List.map_cons, if_neg he]
    have := ih (fun x hx => hb x (List.mem_cons_of_mem _ hx))
    rw [setState] at this
    rw [this]

/-- Every block of the chain ends at or before the high-water mark. -/
theorem wfChain_le {l : List (Nat × Header)} {hw : Nat} (hwf : wfChain l hw) :
    ∀ e ∈ l, e.1 + (hdrSize + blockSize e.2.cls) ≤ hw := by
  induction l generalizing hw with
  | nil => intro e he; simp at he
  | cons a t ih =>
    rw [wfChain] at hwf
    obtain ⟨-, -, hsum, htail⟩ := hwf
    intro e he
    rcases List.mem_cons.mp he with rfl | hmem
    · omega
    · have := ih htail e hmem
      omega

/-- Every block of the chain is in class range and carries the magic. -/
theorem wfChain_cls {l : List (Nat × Header)} {hw : Nat} (hwf : wfChain l hw) :
    ∀ e ∈ l, e.2.cls < 15 ∧ e.2.magic = magicValue := by
  induction l generalizing hw with
  | nil => intro e he; simp at he
  | cons a t ih =>
    rw [wfChain] at hwf
    obtain ⟨hcls, hmag, -, htail⟩ := hwf
    intro e he
    rcases List.mem_cons.mp he with rfl | hmem
    · exact ⟨hcls, hmag⟩
    · exact ih htail e hmem

/-- The block start offsets of the chain are pairwise distinct. -/
theorem wfChain_keys {l : List (Nat × Header)} {hw : Nat} (hwf : wfChain l hw) :
    ∀ e ∈ l, ∀ f ∈ l, e.1 = f.1 → e = f := by
  induction l generalizing hw with
  | nil => intro e he; simp at he
  | cons a t ih =>
    rw [wfChain] at hwf
    obtain ⟨-, -, hsum, htail⟩ := hwf
    have hlt : ∀ e ∈ t, e.1 + (hdrSize + blockSize e.2.cls) ≤ a.1 :=
      wfChain_le htail
    have hna : ∀ e ∈ t, e.1 ≠ a.1 := by
      intro e he hEq
      have h1 := hlt e he
      have h2 := hdrSize_pos
      omega
    intro e he f hf hef
    rcases List.mem_cons.mp he with rfl | hme
    · rcases List.mem_cons.mp hf with rfl | hmf
      · rfl
      · exact absurd hef.symm (hna f hmf)
    · rcases List.mem_cons.mp hf with rfl | hmf
      · exact absurd hef (hna e hme)
      · exact ih htail e hme f hmf hef

/-- Rewriting a state tag preserves the chain shape. -/
theorem wfChain_setState {l : List (Nat × Header)} {hw : Nat}
    (hwf : wfChain l hw) (b : Nat) (s : BlockState) :
    wfChain (setState l b s) hw := by
  induction l generalizing hw with
  | nil => exact hwf
  | cons e t ih =>
    rw [wfChain] at hwf
    obtain ⟨hcls, hmag, hsum, htail⟩ := hwf
    rw [setState, List.map_cons]
    by_cases he : e.1 = b
    · rw [if_pos he, wfChain]
      exact ⟨hcls, hmag, hsum, ih htail⟩
    · rw [if_neg he, wfChain]
      exact ⟨hcls, hmag, hsum, ih htail⟩

/-- The high-water mark splits into free payload, in-use payload and header
overhead. -/
theorem wfChain_sum {l : List (Nat × Header)} {hw : Nat} (hwf : wfChain l hw) :
    hw = stateSum BlockState.FREE l + stateSum BlockState.IN_USE l +
      hdrSize * l.length := by
  induction l generalizing hw with
  | nil => rw [wfChain] at hwf; simp [stateSum, hwf]
  | cons e t ih =>
    rw [wfChain] at hwf
    obtain ⟨-, -, hsum, htail⟩ := hwf
    have := ih htail
    rw [stateSum, stateSum, List.length_cons]
    have hm : hdrSize * (t.length + 1) = hdrSize * t.length + hdrSize := by ring
    cases hs : e.2.state with
    | FREE =>
      simp [hs]
      omega
    | IN_USE =>
      simp [hs]
      omega

/-- The block start offsets of the chain are duplicate-free. -/
theorem wfChain_nodup_keys {l : List (Nat × Header)} {hw : Nat}
    (hwf : wfChain l hw) : (l.map Prod.fst).Nodup := by
  induction l generalizing hw with
  | nil => exact List.nodup_nil
  | cons e t ih =>
    rw [wfChain] at hwf
    obtain ⟨-, -, hsum, htail⟩ := hwf
    rw [List.map_cons, List.nodup_cons]
    refine ⟨?_, ih htail⟩
    intro hmem
    obtain ⟨f, hf, hval⟩ := List.mem_map.mp hmem
    have h1 := wfChain_le htail f hf
    have h2 := hdrSize_pos
    omega

/-- Rewriting the state of the block found at `b` moves its payload between
the two per-state sums and nothing else. -/
theorem stateSum_setState (s s2 : BlockState) :
    ∀ (l : List (Nat × Header)) (b : Nat) (h : Header),
      (l.map Prod.fst).Nodup → headerAt l b = some h →
      stateSum s (setState l b s2) +
          (if h.state = s then blockSize h.cls else 0) =
        stateSum s l + (if s2 = s then blockSize h.cls else 0) := by
  intro l
  induction l with
  | nil => intro b h _ hf; simp [headerAt] at hf
  | cons e t ih =>
    intro b h hnd hf
    rw [List.map_cons, List.nodup_cons] at hnd
    obtain ⟨hkey, hndt⟩ := hnd
    rw [headerAt] at hf
    by_cases he : e.1 = b
    · rw [if_pos he] at hf
      obtain rfl : e.2 = h := by injection hf
      have htid : setState t b s2 = t := by
        refine setState_of_not_mem ?_ s2
        intro f hfmem hfb
        exact hkey (List.mem_map.mpr ⟨f, hfmem, by rw [hfb, ← he]⟩)
      rw [setState, List.map_cons, if_pos he]
      have : List.map (fun e => if e.1 = b then
          ((e.1 : Nat), { e.2 with state := s2 }) else e) t = t := htid
      rw [this, stateSum, stateSum]
      simp only
      omega
    · rw [if_neg he] at hf
      have := ih b h hndt hf
      rw [setState, List.map_cons, if_neg he]
      rw [stateSum, stateSum]
      have hrec : stateSum s (List.map (fun e => if e.1 = b then
          ((e.1 : Nat), { e.2 with state := s2 }) else e) t) =
          stateSum s (setState t b s2) := rfl
      rw [hrec]
      omega

/-- The per-state sum dominates the payload of any block found in it. -/
theorem stateSum_lower (s : BlockState) :
    ∀ (l : List (Nat × Header)) (b : Nat) (h : Header),
      headerAt l b = some h → h.state = s → blockSize h.cls ≤ stateSum s l := by
  intro l
  induction l with
  | nil => intro b h hf; simp [headerAt] at hf
  | cons e t ih =>
    intro b h hf hs
    rw [headerAt] at hf
    rw [stateSum]
    by_cases he : e.1 = b
    · rw [if_pos he] at hf
      obtain rfl : e.2 = h := by injection hf
      rw [if_pos hs]
      omega
    · rw [if_neg he] at hf
      have := ih b h hf hs
      omega

/-- Changing the value of a summed function at one point of a duplicate-free
index list changes the sum by exactly the difference at that point. -/
theorem sum_map_update {F G : Nat → Nat} {c v : Nat} :
    ∀ (l : List Nat), l.Nodup → c ∈ l → (∀ x ∈ l, x ≠ c → G x = F x) →
      G c = v → (l.map G).sum + F c = (l.map F).sum + v := by
  intro l
  induction l with
  | nil => intro _ hc; simp at hc
  | cons a t ih =>
    intro hnd hc hagree hv
    rw [List.nodup_cons] at hnd
    obtain ⟨hat, hndt⟩ := hnd
    rcases List.mem_cons.mp hc with rfl | hct
    · have hmap : t.map G = t.map F := by
        refine List.map_congr_left ?_
        intro x hx
        exact hagree x (List.mem_cons_of_mem _ hx) (fun hxc => hat (hxc ▸ hx))
      rw [List.map_cons, List.map_cons, hmap, List.sum_cons, List.sum_cons, hv]
      omega
    · have hac : a ≠ c := fun hEq => hat (hEq ▸ hct)
      have hGa : G a = F a := hagree a (List.mem_cons_self a t) hac
      have := ih hndt hct
        (fun x hx => hagree x (List.mem_cons_of_mem _ hx)) hv
      rw [List.map_cons, List.map_cons, List.sum_cons, List.sum_cons, hGa]
      omega

/-- `getD` over a mapped range evaluates the function. -/
theorem getD_map_range (f : Nat → Nat) {k c : Nat} (h : c < k) :
    ((List.range k).map f).getD c 0 = f c := by
  rw [List.getD_eq_getElem?_getD, List.getElem?_map, List.getElem?_range h]
  rfl

/-- Folds of functions that agree on the elements of the list agree. -/
theorem foldl_congr_mem {α β : Type _} (f g : α → β → α) :
    ∀ (l : List β) (a : α), (∀ x ∈ l, ∀ s, f s x = g s x) →
      l.foldl f a = l.foldl g a := by
  intro l
  induction l with
  | nil => intro a _; rfl
  | cons x t ih =>
    intro a hagree
    rw [List.foldl_cons, List.foldl_cons,
      hagree x (List.mem_cons_self x t) a]
    exact ih _ (fun y hy => hagree y (List.mem_cons_of_mem _ hy))

/-! ## The class-promotion search -/

/-- A successful promotion search returns the first class at or above the
request class whose free-list is non-empty. -/
theorem findAvail_some {st : MemState} {c c2 : Nat}
    (h : findAvail st c = some c2) :
    c ≤ c2 ∧ c2 < 15 ∧ st.freeLists c2 ≠ [] ∧
      ∀ j, c ≤ j → j < c2 → st.freeLists j = [] := by
  rw [findAvail] at h
  obtain ⟨h1, h2, hp, hmin⟩ := find_range_first _ _ _ h
  have hN : VOS_MEM_NBLOCKSIZES = 15 := rfl
  refine ⟨h1, by omega, ?_, ?_⟩
  · intro hnil
    rw [hnil] at hp
    simp at hp
  · intro j hj1 hj2
    have := hmin j hj1 hj2
    cases hEq : (st.freeLists j).isEmpty with
    | true => exact List.isEmpty_iff.mp hEq
    | false => rw [hEq] at this; simp at this

/-- A failed promotion search means every free-list from the request class
up to the top class is empty. -/
theorem findAvail_none {st : MemState} {c : Nat}
    (h : findAvail st c = none) :
    ∀ j, c ≤ j → j < 15 → st.freeLists j = [] := by
  rw [findAvail, List.find?_eq_none] at h
  intro j hj1 hj2
  have hjmem : j ∈ List.range' c (VOS_MEM_NBLOCKSIZES - c) := by
    rw [List.mem_range']
    exact ⟨j - c, by rw [VOS_MEM_NBLOCKSIZES]; omega, by omega⟩
  have := h j hjmem
  cases hEq : (st.freeLists j).isEmpty with
  | true => exact List.isEmpty_iff.mp hEq
  | false => rw [hEq] at this; simp at this

/-! ## Concrete demonstration states (used by the closed-instance theorems) -/

/-- Fragment vector requesting one pre-carved class-10 block. -/
def demoFrag10 : List Nat := [0, 0, 0, 0, 0, 0, 0, 0, 0, 0, 1, 0, 0, 0, 0]

/-- Arena obtained by initialising a 64 KiB buffer with one class-10 block
pre-fragmented. -/
def demoState64K : MemState :=
  ((vos_memInit (some 0) 65536 demoFrag10).2).getD (initialState 0)

/-- Arena obtained by initialising a 1088-byte buffer (1024-byte region)
without pre-fragmentation. -/
def demoInit1024 : MemState :=
  ((vos_memInit (some 0) 1088 []).2).getD (initialState 0)

/-- The 1024-byte-region arena after one smallest allocation. -/
def demoAlloc1 : MemState := (vos_memAlloc demoInit1024 1).1

/-- The same arena after the allocated block was freed again. -/
def demoFreed : MemState := (vos_memFree demoAlloc1 (some hdrSize)).2

/-- A hand-built descriptor whose only header carries a corrupted magic. -/
def demoBadMagic : MemState :=
  { regionSize := 100, highWater := 40,
    headers := [(0, { cls := 0, state := BlockState.IN_USE, magic := 7 })],
    freeLists := fun _ => [], freeCount := fun _ => 0,
    usedBytes := 32, freeBytes := 0 }

/-! ## Allocation policy -/

/-- Outcome of serving a request of class `c` by popping the free-list of
class `c2`: all lists between `c` and `c2` are empty, the head block is
served whole (its header keeps its class back, only the state tag flips),
the high-water mark does not move and no block is created or split. -/
def promoteOutcome (st : MemState) (n c c2 : Nat) : Prop :=
  c ≤ c2 ∧ c2 < 15 ∧
  (∀ j, c ≤ j → j < c2 → st.freeLists j = []) ∧
  ∃ b rest, st.freeLists c2 = b :: rest ∧
    vos_memAlloc st n =
      ({ st with
          headers := setState st.headers b BlockState.IN_USE,
          freeLists := Function.update st.freeLists c2 rest,
          freeCount := Function.update st.freeCount c2 (st.freeCount c2 - 1),
          usedBytes := st.usedBytes + blockSize c2,
          freeBytes := st.freeBytes - blockSize c2 },
       some (b + hdrSize)) ∧
    (vos_memAlloc st n).1.highWater = st.highWater ∧
    (vos_memAlloc st n).1.headers.length = st.headers.length ∧
    headerAt (vos_memAlloc st n).1.headers b =
      (headerAt st.headers b).map (fun h => { h with state := BlockState.IN_USE })

/-- Outcome of serving a request of class `c` by carving a fresh block from
the virgin tail: the new block is exactly of class `c` and the high-water
mark advances by `sizeof(header) + S[c]`. -/
def carveOutcome (st : MemState) (n c : Nat) : Prop :=
  vos_memAlloc st n =
    ({ st with
        headers := (st.highWater,
          { cls := c, state := BlockState.IN_USE, magic := magicValue })
          :: st.headers,
        highWater := st.highWater + (hdrSize + blockSize c),
        usedBytes := st.usedBytes + blockSize c },
     some (st.highWater + hdrSize))

/-- C3: For a request of class `c`, allocation scans the free-lists upward
from `c` to 14 and pops one block from the first non-empty list, serving the
larger block whole without splitting it; only when all lists `c..14` are
empty does it carve a fresh class-`c` block from the virgin tail, advancing
`highWater` by `sizeof(header) + S[c]` when it fits, and otherwise it
returns null without touching the state — never downgrading to a smaller
class or splitting a larger virgin region. -/
theorem C3_allocation_policy (st : MemState) (n c : Nat)
    (hm : findBlockClass n = some c) :
    (∀ c2, findAvail st c = some c2 → promoteOutcome st n c c2) ∧
    (findAvail st c = none →
      (∀ j, c ≤ j → j < 15 → st.freeLists j = []) ∧
      (st.highWater + (hdrSize + blockSize c) ≤ st.regionSize →
        carveOutcome st n c) ∧
      (st.regionSize < st.highWater + (hdrSize + blockSize c) →
        vos_memAlloc st n = (st, none))) := by
  constructor
  · intro c2 hA
    obtain ⟨h1, h2, hne, hmin⟩ := findAvail_some hA
    refine ⟨h1, h2, hmin, ?_⟩
    cases hl : st.freeLists c2 with
    | nil => exact absurd hl hne
    | cons b rest =>
      have halloc : vos_memAlloc st n =
          ({ st with
              headers := setState st.headers b BlockState.IN_USE,
              freeLists := Function.update st.freeLists c2 rest,
              freeCount := Function.update st.freeCount c2 (st.freeCount c2 - 1),
              usedBytes := st.usedBytes + blockSize c2,
              freeBytes := st.freeBytes - blockSize c2 },
           some (b + hdrSize)) := by
        simp only [vos_memAlloc, hm, hA, hl]
      refine ⟨b, rest, rfl, halloc, ?_, ?_, ?_⟩
      · rw [halloc]
      · rw [halloc]
        simp [setState]
      · rw [halloc]
        exact headerAt_setState_self st.headers b BlockState.IN_USE
  · intro hA
    refine ⟨findAvail_none hA, ?_, ?_⟩
    · intro hfit
      simp only [carveOutcome, vos_memAlloc, hm, hA]
      rw [if_pos hfit]
    · intro hnofit
      simp only [vos_memAlloc, hm, hA]
      rw [if_neg (by omega)]

/-- Witness for C3 at concrete inputs: in the pre-fragmented 64 KiB arena a
request of 20000 bytes (class 10) is served by popping the pre-carved
class-10 block; in the fresh 1024-byte region a request of 1 byte carves a
class-0 block; in a 30-byte region the same request returns null. -/
theorem C3_allocation_policy_witness :
    promoteOutcome demoState64K 20000 10 10 ∧
    carveOutcome demoInit1024 1 0 ∧
    vos_memAlloc (initialState 30) 1 = (initialState 30, none) :=
  ⟨(C3_allocation_policy demoState64K 20000 10 (by decide)).1 10 (by decide),
   ((C3_allocation_policy demoInit1024 1 0 (by decide)).2 (by decide)).2.1
     (by decide),
   ((C3_allocation_policy (initialState 30) 1 0 (by decide)).2 (by decide)).2.2
     (by decide)⟩

/-! ## Lifecycle -/

/-- C8: The allocator lifecycle is UNINIT → INIT → UNINIT.  Every operation
other than init fails with `INIT_ERR` in UNINIT (alloc returning null),
init on an already initialised module is rejected with `PARAM_ERR`, delete
returns the module to UNINIT, and after delete every further call fails with
`INIT_ERR` again; a successful init (shown on a concrete buffer) enters the
INIT state. -/
theorem C8_lifecycle :
    (∀ n, memAllocTop none n = (none, none)) ∧
    (∀ p, memFreeTop none p = (VOS_ERR.INIT_ERR, none)) ∧
    memCountTop none = (VOS_ERR.INIT_ERR, none, none) ∧
    memDeleteTop none = (VOS_ERR.INIT_ERR, none) ∧
    (∀ st pm size frag,
      memInitTop (some st) pm size frag = (VOS_ERR.PARAM_ERR, some st)) ∧
    (∀ st, memDeleteTop (some st) = (VOS_ERR.NO_ERR, none)) ∧
    (∀ st n, memAllocTop (memDeleteTop (some st)).2 n = (none, none)) ∧
    (∀ st p, memFreeTop (memDeleteTop (some st)).2 p = (VOS_ERR.INIT_ERR, none)) ∧
    (∀ st, memCountTop (memDeleteTop (some st)).2 = (VOS_ERR.INIT_ERR, none, none)) ∧
    (∀ st, memDeleteTop (memDeleteTop (some st)).2 = (VOS_ERR.INIT_ERR, none)) ∧
    (memInitTop none (some 0) 1088 []).1 = VOS_ERR.NO_ERR ∧
    (memInitTop none (some 0) 1088 []).2.isSome = true :=
  ⟨fun _ => rfl, fun _ => rfl, rfl, rfl, fun _ _ _ _ => rfl, fun _ => rfl,
   fun _ _ => rfl, fun _ _ => rfl, fun _ => rfl, fun _ => rfl,
   by decide, by decide⟩

/-! ## Deallocation -/

/-- Outcome of a valid free of payload pointer `ptr` whose block header is
`hd`: the header state flips to `FREE`, the block start is pushed onto the
free-list of its recorded class, and the counters move by `S[cls]`. -/
def validFreeOutcome (st : MemState) (ptr : Nat) (hd : Header) : Prop :=
  vos_memFree st (some ptr) =
    (VOS_ERR.NO_ERR,
     { st with
        headers := setState st.headers (ptr - hdrSize) BlockState.FREE,
        freeLists := Function.update st.freeLists hd.cls
          ((ptr - hdrSize) :: st.freeLists hd.cls),
        freeCount := Function.update st.freeCount hd.cls
          (st.freeCount hd.cls + 1),
        usedBytes := st.usedBytes - blockSize hd.cls,
        freeBytes := st.freeBytes + blockSize hd.cls }) ∧
  headerAt (vos_memFree st (some ptr)).2.headers (ptr - hdrSize) =
    some { hd with state := BlockState.FREE } ∧
  (vos_memFree st (some ptr)).2.freeLists hd.cls =
    (ptr - hdrSize) :: st.freeLists hd.cls

/-- C4: Deallocation of a null pointer is a silent no-op; deallocation of a
pointer outside the region, of one at which no block header sits (misaligned
or foreign), of one with a wrong magic, or of one whose header already says
`FREE` (double-free) returns `PARAM_ERR` and leaves the entire state
untouched; only a valid `IN_USE` block is flipped to `FREE` and pushed onto
the free-list of its class. -/
theorem C4_free_validation :
    (∀ st, vos_memFree st none = (VOS_ERR.NO_ERR, st)) ∧
    (∀ st ptr, ptr < hdrSize ∨ st.regionSize ≤ ptr →
      vos_memFree st (some ptr) = (VOS_ERR.PARAM_ERR, st)) ∧
    (∀ st ptr, hdrSize ≤ ptr → ptr < st.regionSize →
      headerAt st.headers (ptr - hdrSize) = none →
      vos_memFree st (some ptr) = (VOS_ERR.PARAM_ERR, st)) ∧
    (∀ st ptr hd, hdrSize ≤ ptr → ptr < st.regionSize →
      headerAt st.headers (ptr - hdrSize) = some hd →
      hd.magic ≠ magicValue →
      vos_memFree st (some ptr) = (VOS_ERR.PARAM_ERR, st)) ∧
    (∀ st ptr hd, hdrSize ≤ ptr → ptr < st.regionSize →
      headerAt st.headers (ptr - hdrSize) = some hd →
      hd.state = BlockState.FREE →
      vos_memFree st (some ptr) = (VOS_ERR.PARAM_ERR, st)) ∧
    (∀ st ptr hd, hdrSize ≤ ptr → ptr < st.regionSize →
      headerAt st.headers (ptr - hdrSize) = some hd →
      hd.magic = magicValue → hd.state = BlockState.IN_USE →
      validFreeOutcome st ptr hd) := by
  refine ⟨fun st => rfl, ?_, ?_, ?_, ?_, ?_⟩
  · intro st ptr hcond
    rw [vos_memFree, if_pos hcond]
  · intro st ptr h1 h2 hlook
    rw [vos_memFree, if_neg (by omega)]
    rw [hlook]
  · intro st ptr hd h1 h2 hlook hmag
    rw [vos_memFree, if_neg (by omega)]
    rw [hlook]
    simp only [if_pos hmag]
  · intro st ptr hd h1 h2 hlook hstate
    rw [vos_memFree, if_neg (by omega)]
    by_cases hmag : hd.magic = magicValue
    · simp only [hlook]
      rw [if_neg (by simp [hmag])]
      simp only [hstate]
    · simp only [hlook]
      rw [if_pos hmag]
  · intro st ptr hd h1 h2 hlook hmag hstate
    have hfree : vos_memFree st (some ptr) =
        (VOS_ERR.NO_ERR,
         { st with
            headers := setState st.headers (ptr - hdrSize) BlockState.FREE,
            freeLists := Function.update st.freeLists hd.cls
              ((ptr - hdrSize) :: st.freeLists hd.cls),
            freeCount := Function.update st.freeCount hd.cls
              (st.freeCount hd.cls + 1),
            usedBytes := st.usedBytes - blockSize hd.cls,
            freeBytes := st.freeBytes + blockSize hd.cls }) := by
      rw [vos_memFree, if_neg (by omega)]
      simp only [hlook]
      rw [if_neg (by simp [hmag])]
      simp only [hstate]
    refine ⟨hfree, ?_, ?_⟩
    · rw [hfree]
      rw [headerAt_setState_self, hlook]
      rfl
    · rw [hfree]
      exact Function.update_same hd.cls _ st.freeLists

/-- Witness for C4 at concrete inputs, exercising every branch: null free on
the fresh arena; a pointer below the first payload; a pointer at which no
block starts; a corrupted magic; a double-free of the one freed block; and a
valid free of the one allocated block. -/
theorem C4_free_validation_witness :
    vos_memFree demoInit1024 none = (VOS_ERR.NO_ERR, demoInit1024) ∧
    vos_memFree demoAlloc1 (some 4) = (VOS_ERR.PARAM_ERR, demoAlloc1) ∧
    vos_memFree demoAlloc1 (some 20) = (VOS_ERR.PARAM_ERR, demoAlloc1) ∧
    vos_memFree demoBadMagic (some 8) = (VOS_ERR.PARAM_ERR, demoBadMagic) ∧
    vos_memFree demoFreed (some 8) = (VOS_ERR.PARAM_ERR, demoFreed) ∧
    validFreeOutcome demoAlloc1 8
      { cls := 0, state := BlockState.IN_USE, magic := magicValue } :=
  ⟨C4_free_validation.1 demoInit1024,
   C4_free_validation.2.1 demoAlloc1 4 (by decide),
   C4_free_validation.2.2.1 demoAlloc1 20 (by decide) (by decide) (by decide),
   C4_free_validation.2.2.2.1 demoBadMagic 8
     { cls := 0, state := BlockState.IN_USE, magic := 7 }
     (by decide) (by decide) (by decide) (by decide),
   C4_free_validation.2.2.2.2.1 demoFreed 8
     { cls := 0, state := BlockState.FREE, magic := magicValue }
     (by decide) (by decide) (by decide) (by decide),
   C4_free_validation.2.2.2.2.2 demoAlloc1 8
     { cls := 0, state := BlockState.IN_USE, magic := magicValue }
     (by decide) (by decide) (by decide) (by decide) (by decide)⟩

/-! ## Initialisation failures -/

/-- C5: Initialisation fails with `PARAM_ERR` for a null buffer pointer or a
size below `sizeof(descriptor) + S[0] + sizeof(header)`, and with `MEM_ERR`
when the region behind the aligned descriptor cannot hold even one
smallest-class block with its header; on every failing return no arena is
established. -/
theorem C5_init_failures :
    (∀ size frag, vos_memInit none size frag = (VOS_ERR.PARAM_ERR, none)) ∧
    (∀ pm size frag, size < descSize + blockSize 0 + hdrSize →
      vos_memInit (some pm) size frag = (VOS_ERR.PARAM_ERR, none)) ∧
    (∀ pm size frag, descSize + blockSize 0 + hdrSize ≤ size →
      size - alignUp descSize 8 < hdrSize + blockSize 0 →
      vos_memInit (some pm) size frag = (VOS_ERR.MEM_ERR, none)) ∧
    (∀ pm size frag, (vos_memInit pm size frag).1 ≠ VOS_ERR.NO_ERR →
      (vos_memInit pm size frag).2 = none) := by
  refine ⟨fun _ _ => rfl, ?_, ?_, ?_⟩
  · intro pm size frag hsize
    rw [vos_memInit, if_pos hsize]
  · intro pm size frag h1 h2
    rw [vos_memInit, if_neg (by omega)]
    simp only
    rw [if_pos h2]
  · intro pm size frag
    cases pm with
    | none => intro _; rfl
    | some a =>
      rw [vos_memInit]
      by_cases hb : size < descSize + blockSize 0 + hdrSize
      · rw [if_pos hb]; intro _; rfl
      · rw [if_neg hb]
        simp only
        by_cases hm : size - alignUp descSize 8 < hdrSize + blockSize 0
        · rw [if_pos hm]; intro _; rfl
        · rw [if_neg hm]
          intro hcontra
          exact absurd rfl hcontra

/-- Witness for C5 at concrete inputs: a 99-byte buffer is rejected with
`PARAM_ERR`, a 100-byte buffer (large enough for the unaligned sum but not
for the aligned region) with `MEM_ERR`, and both leave the module without an
arena. -/
theorem C5_init_failures_witness :
    vos_memInit none 1088 [] = (VOS_ERR.PARAM_ERR, none) ∧
    vos_memInit (some 0) 99 [] = (VOS_ERR.PARAM_ERR, none) ∧
    vos_memInit (some 0) 100 [] = (VOS_ERR.MEM_ERR, none) ∧
    (vos_memInit (some 0) 99 []).2 = none :=
  ⟨C5_init_failures.1 1088 [],
   C5_init_failures.2.1 0 99 [] (by decide),
   C5_init_failures.2.2.1 0 100 [] (by decide) (by decide),
   C5_init_failures.2.2.2 (some 0) 99 [] (by decide)⟩

/-! ## Preservation of the arena invariant -/

/-- Pushing a block onto the free-list of class `c` adds `S[c]` to the total
free-listed payload. -/
theorem listSum_update_cons (f : Nat → List Nat) (c b : Nat) (hc : c < 15) :
    listSum (Function.update f c (b :: f c)) = listSum f + blockSize c := by
  have h := sum_map_update (List.range 15) (List.nodup_range 15)
    (List.mem_range.mpr hc)
    (F := fun x => blockSize x * (f x).length)
    (G := fun x => blockSize x * ((Function.update f c (b :: f c)) x).length)
    (v := blockSize c * ((f c).length + 1))
    (fun x _ hx => by simp [Function.update_noteq hx])
    (by simp)
  simp only at h
  rw [listSum, listSum]
  have hm : blockSize c * ((f c).length + 1) =
      blockSize c * (f c).length + blockSize c := by ring
  omega

/-- Popping the head block of the free-list of class `c` removes `S[c]` from
the total free-listed payload. -/
theorem listSum_update_tail (f : Nat → List Nat) (c b : Nat) (rest : List Nat)
    (hc : c < 15) (hl : f c = b :: rest) :
    listSum (Function.update f c rest) + blockSize c = listSum f := by
  have h := sum_map_update (List.range 15) (List.nodup_range 15)
    (List.mem_range.mpr hc)
    (F := fun x => blockSize x * (f x).length)
    (G := fun x => blockSize x * ((Function.update f c rest) x).length)
    (v := blockSize c * rest.length)
    (fun x _ hx => by simp [Function.update_noteq hx])
    (by simp)
  simp only at h
  rw [listSum, listSum]
  have hlen : (f c).length = rest.length + 1 := by rw [hl, List.length_cons]
  have hm : blockSize c * (f c).length =
      blockSize c * rest.length + blockSize c := by rw [hlen]; ring
  omega

/-- Every member of a free-list starts strictly below the high-water mark. -/
theorem freeMember_lt {st : MemState}
    (h1 : wfChain st.headers st.highWater)
    (h7 : ∀ c, c < 15 → ∀ b ∈ st.freeLists c,
      headerAt st.headers b =
        some { cls := c, state := BlockState.FREE, magic := magicValue })
    {c b : Nat} (hc : c < 15) (hb : b ∈ st.freeLists c) :
    b < st.highWater := by
  have hh := h7 c hc b hb
  have hmem := headerAt_mem hh
  have hle := wfChain_le h1 _ hmem
  have hp := hdrSize_pos
  simp only at hle
  omega

/-- Pre-carving one free block preserves the arena invariant. -/
theorem Inv_carveFree {st st2 : MemState} {c : Nat} (hInv : Inv st)
    (hc : c < 15) (hcarve : carveFree st c = some st2) : Inv st2 := by
  unfold Inv at hInv
  obtain ⟨h1, h2, h3, h4, h5, h6, h7, h8, h9⟩ := hInv
  rw [carveFree] at hcarve
  by_cases hfit : st.highWater + (hdrSize + blockSize c) ≤ st.regionSize
  case neg =>
    rw [if_neg hfit] at hcarve
    exact absurd hcarve (by simp)
  rw [if_pos hfit] at hcarve
  have hst2 : st2 = { st with
      headers := (st.highWater,
        { cls := c, state := BlockState.FREE, magic := magicValue })
        :: st.headers,
      highWater := st.highWater + (hdrSize + blockSize c),
      freeLists := Function.update st.freeLists c
        (st.highWater :: st.freeLists c),
      freeCount := Function.update st.freeCount c (st.freeCount c + 1),
      freeBytes := st.freeBytes + blockSize c } := by
    injection hcarve with hh
    exact hh.symm
  subst hst2
  have hmemlt : ∀ cx, cx < 15 → ∀ b ∈ st.freeLists cx, b < st.highWater :=
    fun cx hcx b hb => freeMember_lt h1 h7 hcx hb
  unfold Inv
  dsimp only
  refine ⟨?_, hfit, ?_, ?_, ?_, ?_, ?_, ?_, ?_⟩
  · rw [wfChain]
    exact ⟨hc, rfl, rfl, h1⟩
  · rw [stateSum]
    simpa using h3
  · rw [freeSumLists]
    dsimp only
    rw [listSum_update_cons st.freeLists c st.highWater hc]
    unfold freeSumLists at h4
    omega
  · rw [stateSum]
    simp only
    unfold freeSumLists at h4
    simp
    omega
  · intro cx hcx
    by_cases hcc : cx = c
    · subst hcc
      rw [Function.update_same, Function.update_same, List.length_cons,
        h6 cx hcx]
    · rw [Function.update_noteq hcc, Function.update_noteq hcc]
      exact h6 cx hcx
  · intro cx hcx b hb
    by_cases hcc : cx = c
    · subst hcc
      rw [Function.update_same] at hb
      rcases List.mem_cons.mp hb with rfl | hbold
      · rw [headerAt, if_pos rfl]

      · have hlt := hmemlt cx hcx b hbold
        rw [headerAt, if_neg (by omega)]
        exact h7 cx hcx b hbold
    · rw [Function.update_noteq hcc] at hb
      have hlt := hmemlt cx hcx b hb
      rw [headerAt, if_neg (by omega)]
      exact h7 cx hcx b hb
  · intro cx hcx
    by_cases hcc : cx = c
    · subst hcc
      rw [Function.update_same, List.nodup_cons]
      refine ⟨fun hmem => ?_, h8 cx hcx⟩
      have := hmemlt cx hcx _ hmem
      omega
    · rw [Function.update_noteq hcc]
      exact h8 cx hcx
  · intro c1 hc1 c2 hc2
    by_cases hcc : c1 = c2
    · exact Or.inl hcc
    · refine Or.inr ?_
      have hold : ∀ b ∈ st.freeLists c1, b ∉ st.freeLists c2 := by
        rcases h9 c1 hc1 c2 hc2 with hEq | hd
        · exact absurd hEq hcc
        · exact hd
      intro b hb
      by_cases h1c : c1 = c
      · subst h1c
        rw [Function.update_same] at hb
        rw [Function.update_noteq (fun hx => hcc hx.symm)]
        rcases List.mem_cons.mp hb with rfl | hbold
        · intro hmem2
          have := hmemlt c2 hc2 _ hmem2
          omega
        · exact hold b hbold
      · rw [Function.update_noteq h1c] at hb
        by_cases h2c : c2 = c
        · subst h2c
          rw [Function.update_same]
          intro hmem
          rcases List.mem_cons.mp hmem with rfl | hmold
          · have := hmemlt c1 hc1 _ hb
            omega
          · exact hold b hb hmold
        · rw [Function.update_noteq h2c]
          exact hold b hb

/-- Pre-fragmenting one class preserves the arena invariant. -/
theorem Inv_prefragClass :
    ∀ (k : Nat) (st : MemState) (c : Nat), Inv st → c < 15 →
      Inv (prefragClass st c k) := by
  intro k
  induction k with
  | zero => intro st c hInv _; exact hInv
  | succ k ih =>
    intro st c hInv hc
    cases hcv : carveFree st c with
    | none => simp only [prefragClass, hcv]; exact hInv
    | some st2 =>
      simp only [prefragClass, hcv]
      exact ih st2 c (Inv_carveFree hInv hc hcv) hc

/-- Pre-fragmentation over any schedule of in-range classes preserves the
arena invariant. -/
theorem Inv_prefragFold :
    ∀ (l : List Nat) (frag : List Nat) (st : MemState),
      (∀ c ∈ l, c < 15) → Inv st →
      Inv (l.foldl
        (fun s c => prefragClass s c
          (min (frag.getD c 0) VOS_MEM_MAX_PREALLOCATE)) st) := by
  intro l
  induction l with
  | nil => intro frag st _ hInv; exact hInv
  | cons c t ih =>
    intro frag st hmem hInv
    rw [List.foldl_cons]
    exact ih frag _ (fun x hx => hmem x (List.mem_cons_of_mem _ hx))
      (Inv_prefragClass _ st c hInv (hmem c (List.mem_cons_self c t)))

/-- The whole pre-fragmentation pass preserves the arena invariant. -/
theorem Inv_prefragAll {st : MemState} (frag : List Nat) (hInv : Inv st) :
    Inv (prefragAll st frag) := by
  rw [prefragAll]
  refine Inv_prefragFold _ frag st ?_ hInv
  intro c hcmem
  rw [List.mem_reverse, List.mem_range] at hcmem
  exact hcmem

/-- The freshly initialised descriptor satisfies the arena invariant. -/
theorem Inv_initialState (rs : Nat) : Inv (initialState rs) := by
  unfold Inv initialState
  dsimp only
  refine ⟨by rw [wfChain], Nat.zero_le rs, rfl, ?_, rfl,
    fun c _ => rfl, fun c _ b hb => absurd hb (List.not_mem_nil b),
    fun c _ => List.nodup_nil, fun c1 _ c2 _ => Or.inr ?_⟩
  · unfold freeSumLists listSum
    dsimp only
    simp
  · intro b hb
    exact absurd hb (List.not_mem_nil b)

/-- Every arena established by a successful initialisation satisfies the
arena invariant. -/
theorem Inv_init {pm : Option Nat} {size : Nat} {frag : List Nat}
    {e : VOS_ERR} {st : MemState}
    (h : vos_memInit pm size frag = (e, some st)) : Inv st := by
  cases pm with
  | none => simp [vos_memInit] at h
  | some a =>
    rw [vos_memInit] at h
    by_cases hb : size < descSize + blockSize 0 + hdrSize
    · rw [if_pos hb] at h
      simp at h
    · rw [if_neg hb] at h
      simp only at h
      by_cases hm : size - alignUp descSize 8 < hdrSize + blockSize 0
      · rw [if_pos hm] at h
        simp at h
      · rw [if_neg hm] at h
        have hst : st = prefragAll
            (initialState (size - alignUp descSize 8)) frag := by
          have := congrArg Prod.snd h
          simp only at this
          injection this with hh
          exact hh.symm
        subst hst
        exact Inv_prefragAll frag (Inv_initialState _)

/-- Allocation preserves the arena invariant. -/
theorem Inv_alloc {st : MemState} (n : Nat) (hInv : Inv st) :
    Inv (vos_memAlloc st n).1 := by
  cases hm : findBlockClass n with
  | none => simp only [vos_memAlloc, hm]; exact hInv
  | some c =>
    have hc15 : c < 15 := (findBlockClass_some hm).1
    cases hA : findAvail st c with
    | some c2 =>
      obtain ⟨hcc2, hc2, hne, -⟩ := findAvail_some hA
      cases hl : st.freeLists c2 with
      | nil => exact absurd hl hne
      | cons b rest =>
        unfold Inv at hInv
        obtain ⟨h1, h2, h3, h4, h5, h6, h7, h8, h9⟩ := hInv
        have hbmem : b ∈ st.freeLists c2 := by
          rw [hl]; exact List.mem_cons_self b rest
        have hhdr := h7 c2 hc2 b hbmem
        have hknd := wfChain_nodup_keys h1
        have hnodc2 : (b :: rest).Nodup := by rw [← hl]; exact h8 c2 hc2
        have hbrest : b ∉ rest := (List.nodup_cons.mp hnodc2).1
        have hIN : stateSum BlockState.IN_USE
            (setState st.headers b BlockState.IN_USE) =
            stateSum BlockState.IN_USE st.headers + blockSize c2 := by
          have := stateSum_setState BlockState.IN_USE BlockState.IN_USE
            st.headers b _ hknd hhdr
          simp at this
          omega
        have hFR : stateSum BlockState.FREE
            (setState st.headers b BlockState.IN_USE) + blockSize c2 =
            stateSum BlockState.FREE st.headers := by
          have := stateSum_setState BlockState.FREE BlockState.IN_USE
            st.headers b _ hknd hhdr
          simp at this
          omega
        have hge : blockSize c2 ≤ st.freeBytes := by
          have := stateSum_lower BlockState.FREE st.headers b _ hhdr rfl
          simp at this
          omega
        have hLS := listSum_update_tail st.freeLists c2 b rest hc2 hl
        have hsub : ∀ cx, cx < 15 →
            ∀ x ∈ (Function.update st.freeLists c2 rest) cx,
              x ∈ st.freeLists cx := by
          intro cx hcx x hx
          by_cases hcc : cx = c2
          · subst hcc
            rw [Function.update_same] at hx
            rw [hl]
            exact List.mem_cons_of_mem b hx
          · rw [Function.update_noteq hcc] at hx
            exact hx
        simp only [vos_memAlloc, hm, hA, hl]
        unfold Inv
        dsimp only
        refine ⟨wfChain_setState h1 b BlockState.IN_USE, h2, ?_, ?_, ?_,
          ?_, ?_, ?_, ?_⟩
        · rw [hIN, h3]
        · unfold freeSumLists at h4 ⊢
          dsimp only
          omega
        · omega
        · intro cx hcx
          by_cases hcc : cx = c2
          · subst hcc
            rw [Function.update_same, Function.update_same]
            have hcnt := h6 cx hcx
            rw [hl, List.length_cons] at hcnt
            omega
          · rw [Function.update_noteq hcc, Function.update_noteq hcc]
            exact h6 cx hcx
        · intro cx hcx b2 hb2
          by_cases hcc : cx = c2
          · subst hcc
            rw [Function.update_same] at hb2
            have hb2old : b2 ∈ st.freeLists cx := by
              rw [hl]
              exact List.mem_cons_of_mem b hb2
            have hbne : b2 ≠ b := fun hEq => hbrest (hEq ▸ hb2)
            rw [headerAt_setState_ne st.headers b b2 BlockState.IN_USE hbne]
            exact h7 cx hcx b2 hb2old
          · rw [Function.update_noteq hcc] at hb2
            have hbne : b2 ≠ b := by
              rcases h9 cx hcx c2 hc2 with hEq | hd
              · exact absurd hEq hcc
              · exact fun hEq => hd b2 hb2 (hEq ▸ hbmem)
            rw [headerAt_setState_ne st.headers b b2 BlockState.IN_USE hbne]
            exact h7 cx hcx b2 hb2
        · intro cx hcx
          by_cases hcc : cx = c2
          · subst hcc
            rw [Function.update_same]
            exact (List.nodup_cons.mp hnodc2).2
          · rw [Function.update_noteq hcc]
            exact h8 cx hcx
        · intro c1 hc1 c2x hc2x
          by_cases hcc : c1 = c2x
          · exact Or.inl hcc
          · refine Or.inr ?_
            have hold : ∀ x ∈ st.freeLists c1, x ∉ st.freeLists c2x := by
              rcases h9 c1 hc1 c2x hc2x with hEq | hd
              · exact absurd hEq hcc
              · exact hd
            intro b2 hb2 hmem2
            exact hold b2 (hsub c1 hc1 b2 hb2) (hsub c2x hc2x b2 hmem2)
    | none =>
      by_cases hfit : st.highWater + (hdrSize + blockSize c) ≤ st.regionSize
      · unfold Inv at hInv
        obtain ⟨h1, h2, h3, h4, h5, h6, h7, h8, h9⟩ := hInv
        have hmemlt : ∀ cx, cx < 15 → ∀ b ∈ st.freeLists cx,
            b < st.highWater :=
          fun cx hcx b hb => freeMember_lt h1 h7 hcx hb
        simp only [vos_memAlloc, hm, hA]
        rw [if_pos hfit]
        unfold Inv
        dsimp only
        refine ⟨?_, hfit, ?_, h4, ?_, h6, ?_, h8, h9⟩
        · rw [wfChain]
          exact ⟨hc15, rfl, rfl, h1⟩
        · rw [stateSum]
          simp
          omega
        · rw [stateSum]
          simpa using h5
        · intro cx hcx b hb
          have hlt := hmemlt cx hcx b hb
          rw [headerAt, if_neg (by omega)]
          exact h7 cx hcx b hb
      · simp only [vos_memAlloc, hm, hA]
        rw [if_neg hfit]
        exact hInv

/-- Deallocation preserves the arena invariant. -/
theorem Inv_free {st : MemState} (p : Option Nat) (hInv : Inv st) :
    Inv (vos_memFree st p).2 := by
  cases p with
  | none => exact hInv
  | some ptr =>
    by_cases hbound : ptr < hdrSize ∨ st.regionSize ≤ ptr
    · rw [vos_memFree, if_pos hbound]
      exact hInv
    · rw [vos_memFree, if_neg hbound]
      cases hlook : headerAt st.headers (ptr - hdrSize) with
      | none => exact hInv
      | some hd =>
        by_cases hmag : hd.magic = magicValue
        case neg =>
          simp only
          rw [if_pos hmag]
          exact hInv
        case pos =>
          cases hstate : hd.state with
          | FREE =>
            simp only
            rw [if_neg (by simp [hmag])]
            simp only [hstate]
            exact hInv
          | IN_USE =>
            unfold Inv at hInv
            obtain ⟨h1, h2, h3, h4, h5, h6, h7, h8, h9⟩ := hInv
            simp only
            rw [if_neg (by simp [hmag])]
            simp only [hstate]
            have hmemhdr := headerAt_mem hlook
            have hcls : hd.cls < 15 := (wfChain_cls h1 _ hmemhdr).1
            have hknd := wfChain_nodup_keys h1
            have hnotin : ∀ cx, cx < 15 →
                (ptr - hdrSize) ∉ st.freeLists cx := by
              intro cx hcx hmem
              have hcon := h7 cx hcx _ hmem
              rw [hlook] at hcon
              have hhd := Option.some.inj hcon
              rw [hhd] at hstate
              simp at hstate
            have hIN : stateSum BlockState.IN_USE
                (setState st.headers (ptr - hdrSize) BlockState.FREE) +
                  blockSize hd.cls =
                stateSum BlockState.IN_USE st.headers := by
              have := stateSum_setState BlockState.IN_USE BlockState.FREE
                st.headers (ptr - hdrSize) hd hknd hlook
              rw [hstate] at this
              simp at this
              omega
            have hFR : stateSum BlockState.FREE
                (setState st.headers (ptr - hdrSize) BlockState.FREE) =
                stateSum BlockState.FREE st.headers + blockSize hd.cls := by
              have := stateSum_setState BlockState.FREE BlockState.FREE
                st.headers (ptr - hdrSize) hd hknd hlook
              rw [hstate] at this
              simp at this
              omega
            have hgeU : blockSize hd.cls ≤ st.usedBytes := by
              have := stateSum_lower BlockState.IN_USE st.headers
                (ptr - hdrSize) hd hlook hstate
              omega
            have hLS := listSum_update_cons st.freeLists hd.cls
              (ptr - hdrSize) hcls
            unfold Inv
            dsimp only
            refine ⟨wfChain_setState h1 (ptr - hdrSize) BlockState.FREE, h2,
              ?_, ?_, ?_, ?_, ?_, ?_, ?_⟩
            · omega
            · unfold freeSumLists at h4 ⊢
              dsimp only
              omega
            · omega
            · intro cx hcx
              by_cases hcc : cx = hd.cls
              · rw [hcc, Function.update_same, Function.update_same,
                  List.length_cons, h6 hd.cls hcls]
              · rw [Function.update_noteq hcc, Function.update_noteq hcc]
                exact h6 cx hcx
            · intro cx hcx b2 hb2
              by_cases hcc : cx = hd.cls
              · rw [hcc] at hb2 ⊢
                rw [Function.update_same] at hb2
                rcases List.mem_cons.mp hb2 with rfl | hbold
                · rw [headerAt_setState_self, hlook]
                  simp [hmag]
                · have hbne : b2 ≠ ptr - hdrSize :=
                    fun hEq => hnotin hd.cls hcls (hEq ▸ hbold)
                  rw [headerAt_setState_ne st.headers (ptr - hdrSize) b2
                    BlockState.FREE hbne]
                  exact h7 hd.cls hcls b2 hbold
              · rw [Function.update_noteq hcc] at hb2
                have hbne : b2 ≠ ptr - hdrSize :=
                  fun hEq => hnotin cx hcx (hEq ▸ hb2)
                rw [headerAt_setState_ne st.headers (ptr - hdrSize) b2
                  BlockState.FREE hbne]
                exact h7 cx hcx b2 hb2
            · intro cx hcx
              by_cases hcc : cx = hd.cls
              · rw [hcc, Function.update_same, List.nodup_cons]
                exact ⟨hnotin hd.cls hcls, h8 hd.cls hcls⟩
              · rw [Function.update_noteq hcc]
                exact h8 cx hcx
            · intro c1 hc1 c2x hc2x
              by_cases hcc : c1 = c2x
              · exact Or.inl hcc
              · refine Or.inr ?_
                have hold : ∀ x ∈ st.freeLists c1, x ∉ st.freeLists c2x := by
                  rcases h9 c1 hc1 c2x hc2x with hEq | hd2
                  · exact absurd hEq hcc
                  · exact hd2
                intro b2 hb2
                by_cases h1c : c1 = hd.cls
                · rw [h1c, Function.update_same] at hb2
                  have hc2ne : c2x ≠ hd.cls :=
                    fun hx => hcc (h1c.trans hx.symm)
                  rw [Function.update_noteq hc2ne]
                  rcases List.mem_cons.mp hb2 with rfl | hbold
                  · exact fun hmem => hnotin c2x hc2x hmem
                  · exact hold b2 (by rw [h1c]; exact hbold)
                · rw [Function.update_noteq h1c] at hb2
                  by_cases h2c : c2x = hd.cls
                  · rw [h2c, Function.update_same]
                    intro hmem
                    rcases List.mem_cons.mp hmem with hEq | hmold
                    · exact hnotin c1 hc1 (hEq ▸ hb2)
                    · exact hold b2 hb2 (by rw [h2c]; exact hmold)
                  · rw [Function.update_noteq h2c]
                    exact hold b2 hb2

/-- The in-use payload sum equals the class-indexed sum of payload size times
in-use count. -/
theorem stateSum_count {l : List (Nat × Header)}
    (hcls : ∀ e ∈ l, e.2.cls < 15) :
    stateSum BlockState.IN_USE l =
      ((List.range 15).map (fun c => blockSize c * inUseCount l c)).sum := by
  induction l with
  | nil => decide
  | cons e t ih =>
    have hecls : e.2.cls < 15 := hcls e (List.mem_cons_self e t)
    have iht := ih (fun x hx => hcls x (List.mem_cons_of_mem _ hx))
    rw [stateSum]
    cases hs : e.2.state with
    | FREE =>
      have hmapEq : (List.range 15).map
          (fun c => blockSize c * inUseCount (e :: t) c) =
          (List.range 15).map (fun c => blockSize c * inUseCount t c) := by
        refine List.map_congr_left ?_
        intro c _
        rw [inUseCount]
        simp [hs]
      rw [hmapEq]
      simp [hs]
      exact iht
    | IN_USE =>
      have h := sum_map_update (List.range 15) (List.nodup_range 15)
        (List.mem_range.mpr hecls)
        (F := fun c => blockSize c * inUseCount t c)
        (G := fun c => blockSize c * inUseCount (e :: t) c)
        (v := blockSize e.2.cls * (1 + inUseCount t e.2.cls))
        (fun x _ hx => by simp [inUseCount, hs, Ne.symm hx])
        (by simp [inUseCount, hs])
      simp only at h
      have hm : blockSize e.2.cls * (1 + inUseCount t e.2.cls) =
          blockSize e.2.cls * inUseCount t e.2.cls + blockSize e.2.cls := by
        ring
      simp [hs]
      omega

/-- Counterexample for the three-term accounting equation of C7: after
initialising a 1024-byte region and allocating one block, the header of the
carved block occupies eight bytes that are neither used payload, free
payload, nor virgin tail, so usedBytes + freeBytes + unusedTailBytes
undershoots the region size. -/
theorem C7_sum_counterexample :
    demoAlloc1.usedBytes + demoAlloc1.freeBytes +
      (demoAlloc1.regionSize - demoAlloc1.highWater) ≠
      demoAlloc1.regionSize := by
  decide

/-- C7 (amended): the arena invariant is established by init and preserved
by alloc and free; under it, usedBytes equals the sum of `S[c]` over all
`IN_USE` blocks, equivalently `Σ S[c] · inUseCount[c]`, and usedBytes +
freeBytes + unusedTailBytes + `sizeof(header)` times the number of carved
blocks equals the size of the allocation region (the claim as stated omits
the header overhead term). -/
theorem C7_accounting_invariants :
    (∀ pm size frag e st,
      vos_memInit pm size frag = (e, some st) → Inv st) ∧
    (∀ st n, Inv st → Inv (vos_memAlloc st n).1) ∧
    (∀ st p, Inv st → Inv (vos_memFree st p).2) ∧
    (∀ st, Inv st →
      st.usedBytes = stateSum BlockState.IN_USE st.headers ∧
      st.usedBytes = ((List.range 15).map
        (fun c => blockSize c * inUseCount st.headers c)).sum ∧
      st.usedBytes + st.freeBytes + (st.regionSize - st.highWater) +
        hdrSize * st.headers.length = st.regionSize) := by
  refine ⟨fun pm size frag e st h => Inv_init h,
    fun st n h => Inv_alloc n h,
    fun st p h => Inv_free p h, ?_⟩
  intro st hInv
  unfold Inv at hInv
  obtain ⟨h1, h2, h3, h4, h5, h6, h7, h8, h9⟩ := hInv
  have hcls : ∀ e ∈ st.headers, e.2.cls < 15 :=
    fun e he => (wfChain_cls h1 e he).1
  have hsum := wfChain_sum h1
  refine ⟨h3, ?_, ?_⟩
  · rw [h3]
    exact stateSum_count hcls
  · omega

/-- Witness for C7 (amended) at concrete inputs: the pre-fragmented 64 KiB
arena satisfies the invariant, allocation and free preserve it, and the
accounting equations hold on it. -/
theorem C7_accounting_invariants_witness :
    Inv demoState64K ∧
    Inv (vos_memAlloc demoState64K 20000).1 ∧
    Inv (vos_memFree demoAlloc1 (some 8)).2 ∧
    (demoState64K.usedBytes =
        stateSum BlockState.IN_USE demoState64K.headers ∧
      demoState64K.usedBytes = ((List.range 15).map
        (fun c => blockSize c * inUseCount demoState64K.headers c)).sum ∧
      demoState64K.usedBytes + demoState64K.freeBytes +
        (demoState64K.regionSize - demoState64K.highWater) +
        hdrSize * demoState64K.headers.length = demoState64K.regionSize) :=
  ⟨C7_accounting_invariants.1 (some 0) 65536 demoFrag10 VOS_ERR.NO_ERR
      demoState64K rfl,
   C7_accounting_invariants.2.1 demoState64K 20000 (by decide),
   C7_accounting_invariants.2.2.1 demoAlloc1 (some 8) (by decide),
   C7_accounting_invariants.2.2.2 demoState64K (by decide)⟩

/-! ## Accounting purity -/

/-- C9: The accounting operation is pure: it leaves the module state
untouched and two back-to-back calls return identical output; it returns
usedBytes, a free total counting both the free-listed payloads and the
unused virgin tail, and the per-class vector whose entry `c` is the length
of the free-list of class `c`. -/
theorem C9_count_pure :
    (∀ st, memCountTop (some st) =
      (VOS_ERR.NO_ERR, some (vos_memCount st), some st)) ∧
    (∀ st, memCountTop ((memCountTop (some st)).2.2) =
      memCountTop (some st)) ∧
    (∀ st, Inv st →
      (vos_memCount st).1 = st.usedBytes ∧
      (vos_memCount st).2.1 =
        freeSumLists st + (st.regionSize - st.highWater) ∧
      (vos_memCount st).2.2.length = 15 ∧
      (∀ c, c < 15 →
        (vos_memCount st).2.2.getD c 0 = (st.freeLists c).length)) := by
  refine ⟨fun st => rfl, fun st => rfl, ?_⟩
  intro st hInv
  unfold Inv at hInv
  obtain ⟨h1, h2, h3, h4, h5, h6, h7, h8, h9⟩ := hInv
  refine ⟨rfl, ?_, ?_, ?_⟩
  · show st.freeBytes + (st.regionSize - st.highWater) = _
    rw [h4]
  · show ((List.range VOS_MEM_NBLOCKSIZES).map st.freeCount).length = 15
    rw [List.length_map, List.length_range]
    rfl
  · intro c hc
    show ((List.range VOS_MEM_NBLOCKSIZES).map st.freeCount).getD c 0 = _
    rw [getD_map_range st.freeCount (by rw [VOS_MEM_NBLOCKSIZES]; omega)]
    exact h6 c hc

/-- Witness for C9 at a concrete input: the count over the pre-fragmented
64 KiB arena reports its one free class-10 block and the virgin tail. -/
theorem C9_count_pure_witness :
    memCountTop (some demoState64K) =
      (VOS_ERR.NO_ERR, some (vos_memCount demoState64K),
        some demoState64K) ∧
    memCountTop ((memCountTop (some demoState64K)).2.2) =
      memCountTop (some demoState64K) ∧
    ((vos_memCount demoState64K).1 = demoState64K.usedBytes ∧
      (vos_memCount demoState64K).2.1 = freeSumLists demoState64K +
        (demoState64K.regionSize - demoState64K.highWater) ∧
      (vos_memCount demoState64K).2.2.length = 15 ∧
      (∀ c, c < 15 → (vos_memCount demoState64K).2.2.getD c 0 =
        (demoState64K.freeLists c).length)) :=
  ⟨C9_count_pure.1 demoState64K,
   C9_count_pure.2.1 demoState64K,
   C9_count_pure.2.2 demoState64K (by decide)⟩

/-! ## Pre-fragmentation -/

/-- With enough virgin capacity, pre-fragmenting class `c` carves exactly
`k` blocks: the free count of class `c` rises by `k`, the high-water mark
advances by `k * (sizeof(header) + S[c])`, and no other class is touched. -/
theorem prefragClass_capacity :
    ∀ (k : Nat) (st : MemState) (c : Nat),
      st.highWater + k * (hdrSize + blockSize c) ≤ st.regionSize →
      (prefragClass st c k).freeCount c = st.freeCount c + k ∧
      (prefragClass st c k).highWater =
        st.highWater + k * (hdrSize + blockSize c) ∧
      (prefragClass st c k).regionSize = st.regionSize ∧
      (∀ j, j ≠ c → (prefragClass st c k).freeCount j = st.freeCount j) := by
  intro k
  induction k with
  | zero =>
    intro st c _
    refine ⟨by simp [prefragClass], by simp [prefragClass],
      by simp [prefragClass], fun j hj => by simp [prefragClass]⟩
  | succ k ih =>
    intro st c hcap
    have hstep : (k + 1) * (hdrSize + blockSize c) =
        k * (hdrSize + blockSize c) + (hdrSize + blockSize c) := by ring
    have hfit : st.highWater + (hdrSize + blockSize c) ≤ st.regionSize := by
      omega
    cases hcv : carveFree st c with
    | none =>
      rw [carveFree, if_pos hfit] at hcv
      exact absurd hcv (by simp)
    | some st2 =>
      have hcv2 := hcv
      rw [carveFree, if_pos hfit] at hcv2
      have hst2 := (Option.some.inj hcv2).symm
      simp only [prefragClass, hcv]
      have hcap2 : st2.highWater + k * (hdrSize + blockSize c) ≤
          st2.regionSize := by
        rw [hst2]
        dsimp only
        omega
      obtain ⟨ih1, ih2, ih3, ih4⟩ := ih st2 c hcap2
      refine ⟨?_, ?_, ?_, ?_⟩
      · rw [ih1, hst2]
        dsimp only
        rw [Function.update_same]
        omega
      · rw [ih2, hst2]
        dsimp only
        omega
      · rw [ih3, hst2]
      · intro j hj
        rw [ih4 j hj, hst2]
        dsimp only
        rw [Function.update_noteq hj]

/-- When even one more block of class `c` does not fit into the virgin tail,
pre-fragmenting that class is a no-op for any requested count. -/
theorem prefragClass_stops :
    ∀ (k : Nat) (st : MemState) (c : Nat),
      st.regionSize < st.highWater + (hdrSize + blockSize c) →
      prefragClass st c k = st := by
  intro k
  cases k with
  | zero => intro st c _; rfl
  | succ k =>
    intro st c hover
    have hcv : carveFree st c = none := by
      rw [carveFree, if_neg (by omega)]
    simp only [prefragClass, hcv]

/-- Pre-fragmentation counts are clamped at `VOS_MEM_MAX_PREALLOCATE`:
clamping the fragment vector beforehand changes nothing. -/
theorem prefragAll_clamp (st : MemState) (frag : List Nat) :
    prefragAll st frag =
      prefragAll st (frag.map (fun x => min x VOS_MEM_MAX_PREALLOCATE)) := by
  rw [prefragAll, prefragAll]
  refine foldl_congr_mem _ _ _ st ?_
  intro c _ s
  have hcnt : min ((frag.map (fun y => min y VOS_MEM_MAX_PREALLOCATE)).getD c 0)
      VOS_MEM_MAX_PREALLOCATE =
      min (frag.getD c 0) VOS_MEM_MAX_PREALLOCATE := by
    rw [List.getD_eq_getElem?_getD, List.getD_eq_getElem?_getD,
      List.getElem?_map]
    cases frag[c]? with
    | none => rfl
    | some v =>
      show min (min v VOS_MEM_MAX_PREALLOCATE) VOS_MEM_MAX_PREALLOCATE =
        min v VOS_MEM_MAX_PREALLOCATE
      omega
  rw [hcnt]

/-- Fragment vector asking for one class-14 block and two class-0 blocks. -/
def demoFragBig : List Nat := [2, 0, 0, 0, 0, 0, 0, 0, 0, 0, 0, 0, 0, 0, 1]

/-- Arena pre-fragmented with `demoFragBig` in a region that exactly fits
all three blocks. -/
def demoBig : MemState :=
  ((vos_memInit (some 0) 524440 demoFragBig).2).getD (initialState 0)

/-- Fragment vector asking for twenty class-0 blocks (above the cap). -/
def demoFragMany : List Nat := [20]

/-- Arena whose 200-byte region can hold only five class-0 blocks. -/
def demoSmall : MemState :=
  ((vos_memInit (some 0) 264 demoFragMany).2).getD (initialState 0)

/-- C6: Pre-fragmentation processes the classes largest-first (shown
concretely: the class-14 block is carved at offset 0, below both class-0
blocks), carves per class the requested count clamped to
`VOS_MEM_MAX_PREALLOCATE` while it fits, stops the class when the virgin
tail is exhausted, and init returns `NO_ERR` regardless (shown concretely:
twenty requested class-0 blocks in a 200-byte region yield five blocks and
`NO_ERR`). -/
theorem C6_prefragmentation :
    (∀ k st c, st.highWater + k * (hdrSize + blockSize c) ≤ st.regionSize →
      (prefragClass st c k).freeCount c = st.freeCount c + k ∧
      (prefragClass st c k).highWater =
        st.highWater + k * (hdrSize + blockSize c) ∧
      (prefragClass st c k).regionSize = st.regionSize ∧
      (∀ j, j ≠ c → (prefragClass st c k).freeCount j = st.freeCount j)) ∧
    (∀ k st c, st.regionSize < st.highWater + (hdrSize + blockSize c) →
      prefragClass st c k = st) ∧
    (∀ st frag, prefragAll st frag =
      prefragAll st (frag.map (fun x => min x VOS_MEM_MAX_PREALLOCATE))) ∧
    (∀ pm size frag, descSize + blockSize 0 + hdrSize ≤ size →
      hdrSize + blockSize 0 ≤ size - alignUp descSize 8 →
      (vos_memInit (some pm) size frag).1 = VOS_ERR.NO_ERR) ∧
    ((vos_memInit (some 0) 524440 demoFragBig).1 = VOS_ERR.NO_ERR ∧
      demoBig.freeLists 14 = [0] ∧
      demoBig.freeLists 0 = [524336, 524296] ∧
      demoBig.highWater = 524376) ∧
    ((vos_memInit (some 0) 264 demoFragMany).1 = VOS_ERR.NO_ERR ∧
      demoSmall.freeCount 0 = 5 ∧
      demoSmall.highWater = demoSmall.regionSize) := by
  refine ⟨prefragClass_capacity, prefragClass_stops, prefragAll_clamp, ?_,
    by decide, by decide⟩
  intro pm size frag h1 h2
  rw [vos_memInit, if_neg (by omega)]
  simp only
  rw [if_neg (by omega)]

/-- Witness for C6 at concrete inputs: three class-0 blocks carved in a
1000-byte region, a five-block request in a 30-byte region stopping
immediately, and a concrete successful init. -/
theorem C6_prefragmentation_witness :
    ((prefragClass (initialState 1000) 0 3).freeCount 0 =
        (initialState 1000).freeCount 0 + 3 ∧
      (prefragClass (initialState 1000) 0 3).highWater =
        (initialState 1000).highWater + 3 * (hdrSize + blockSize 0) ∧
      (prefragClass (initialState 1000) 0 3).regionSize =
        (initialState 1000).regionSize ∧
      (∀ j, j ≠ 0 → (prefragClass (initialState 1000) 0 3).freeCount j =
        (initialState 1000).freeCount j)) ∧
    prefragClass (initialState 30) 0 5 = initialState 30 ∧
    (vos_memInit (some 0) 1088 []).1 = VOS_ERR.NO_ERR :=
  ⟨C6_prefragmentation.1 3 (initialState 1000) 0 (by decide),
   C6_prefragmentation.2.1 5 (initialState 30) 0 (by decide),
   C6_prefragmentation.2.2.2.1 0 1088 [] (by decide) (by decide)⟩

end VosMem
